import Mathlib

/-!
Verification of the HEhub modular-arithmetic kernel and RLWE primitive types.

The repository provides the headers `src/common/mod_arith.h` and
`src/primitives/rlwe.h`.  The bodies of `vector_mul_mod_hybrid_lazy`,
`vector_mul_mod_barrett_lazy` and `strict_reduce` (and the RNS polynomial
container) live in translation units that are not part of the visible
sources, so those are modelled from the specification text; the inline
strict wrappers and the `ComponentData` overloads are translated verbatim
from `mod_arith.h`.

Machine vectors of `u64` are embedded as `List ℕ`; every arithmetic step is
carried out with exact natural numbers, with the radix `2^64` appearing
explicitly where the algorithms truncate or divide by it.
-/

namespace hehub

/-- The Montgomery radix `R = 2^64`, the word size of the `u64` vectors. -/
def montRadix : ℕ := 2 ^ 64

/-- Binary modular exponentiation with explicit fuel (sufficient whenever
the exponent is below `2^fuel`).  Used to derive the Montgomery constant. -/
def powModAux : ℕ → ℕ → ℕ → ℕ → ℕ
  | 0, _, _, m => 1 % m
  | fuel + 1, b, e, m =>
    if e = 0 then 1 % m
    else
      let h := powModAux fuel (b * b % m) (e / 2) m
      if e % 2 = 1 then h * (b % m) % m else h

/-- `powMod b e m = b ^ e % m` for any exponent below `2^64`. -/
def powMod (b e m : ℕ) : ℕ := powModAux 64 b e m

theorem powModAux_correct :
    ∀ (fuel : ℕ) (b e m : ℕ), 0 < m → e < 2 ^ fuel →
      powModAux fuel b e m = b ^ e % m := by
  intro fuel
  induction fuel with
  | zero =>
    intro b e m hm he
    interval_cases e
    simp [powModAux]
  | succ k ih =>
    intro b e m hm he
    by_cases h0 : e = 0
    · subst h0; simp [powModAux]
    · have hdiv : e / 2 < 2 ^ k := by
        have : e < 2 ^ k * 2 := by
          have := he; rw [pow_succ] at this; omega
        omega
      have ihh := ih (b * b % m) (e / 2) m hm hdiv
      have hbb : (b * b % m) ^ (e / 2) % m = (b * b) ^ (e / 2) % m := by
        conv_rhs => rw [Nat.pow_mod]
      have hsq : (b * b) ^ (e / 2) = b ^ (2 * (e / 2)) := by
        rw [pow_mul, pow_two]
      by_cases hpar : e % 2 = 1
      · have he2 : e = 2 * (e / 2) + 1 := by omega
        simp only [powModAux, h0, if_false, hpar, if_true]
        rw [ihh, hbb, hsq, ← Nat.mul_mod, ← pow_succ]
        rw [← he2]
      · have hpar0 : e % 2 = 0 := by omega
        have he2 : e = 2 * (e / 2) := by omega
        simp only [powModAux, h0, if_false, hpar, if_false]
        rw [ihh, hbb, hsq, ← he2]

theorem powMod_correct (b e m : ℕ) (hm : 0 < m) (he : e < 2 ^ 64) :
    powMod b e m = b ^ e % m :=
  powModAux_correct 64 b e m hm he

/-- Modelled from the spec (§4.1): the Montgomery-domain constant of the
modulus lookup tuple — here materialised as the inverse of `modulus`
modulo `2^64`, obtained by Euler's theorem (`φ(2^64) = 2^63`). -/
def mInv (m : ℕ) : ℕ := powMod m (2 ^ 63 - 1) montRadix

/-- Modelled from the spec (§4.1): the negated inverse `-modulus⁻¹ mod 2^64`
used by the Montgomery reduction step. -/
def mPrime (m : ℕ) : ℕ := (montRadix - mInv m) % montRadix

theorem montRadix_pos : 0 < montRadix := by decide

theorem mInv_mul (m : ℕ) (hodd : m % 2 = 1) :
    m * mInv m % montRadix = 1 := by
  have hcop2 : Nat.Coprime 2 m :=
    (Nat.prime_two.coprime_iff_not_dvd).mpr (by
      intro hdvd
      rcases hdvd with ⟨k, hk⟩
      omega)
  have hcop64 : Nat.Coprime m montRadix := Nat.Coprime.pow_right 64 hcop2.symm
  have heuler : m ^ Nat.totient montRadix ≡ 1 [MOD montRadix] :=
    Nat.ModEq.pow_totient hcop64
  have htot : Nat.totient montRadix = 2 ^ 63 := by
    have := Nat.totient_prime_pow Nat.prime_two (show 0 < 64 by norm_num)
    simpa [montRadix] using this
  have hmi : mInv m = m ^ (2 ^ 63 - 1) % montRadix :=
    powMod_correct m (2 ^ 63 - 1) montRadix montRadix_pos (by norm_num [montRadix])
  have h1 : m * mInv m ≡ m ^ (2 ^ 63) [MOD montRadix] := by
    calc m * mInv m ≡ m * m ^ (2 ^ 63 - 1) [MOD montRadix] :=
          Nat.ModEq.mul_left m (by rw [hmi]; exact Nat.mod_modEq _ _)
      _ = m ^ (2 ^ 63) := by
          rw [← pow_succ']
          norm_num
  have h2 : m ^ (2 ^ 63) ≡ 1 [MOD montRadix] := htot ▸ heuler
  have h3 := h1.trans h2
  have h4 : m * mInv m % montRadix = 1 % montRadix := h3
  rw [h4]
  norm_num [montRadix]

theorem powModAux_lt : ∀ (fuel b e m : ℕ), 0 < m → powModAux fuel b e m < m := by
  intro fuel
  induction fuel with
  | zero => intro b e m hm; simpa [powModAux] using Nat.mod_lt 1 hm
  | succ k ih =>
    intro b e m hm
    by_cases h0 : e = 0
    · subst h0; simpa [powModAux] using Nat.mod_lt 1 hm
    · by_cases hpar : e % 2 = 1
      · simp only [powModAux, h0, if_false, hpar, if_true]
        exact Nat.mod_lt _ hm
      · simp only [powModAux, h0, if_false, hpar, if_false]
        exact ih _ _ _ hm

theorem mInv_lt (m : ℕ) : mInv m < montRadix := by
  unfold mInv powMod
  exact powModAux_lt 64 m (2 ^ 63 - 1) montRadix montRadix_pos

theorem mPrime_mul (m : ℕ) (hodd : m % 2 = 1) :
    m * mPrime m % montRadix = montRadix - 1 := by
  have h1 := mInv_mul m hodd
  have hlt := mInv_lt m
  have hpos : 0 < mInv m := by
    rcases Nat.eq_zero_or_pos (mInv m) with h | h
    · rw [h, Nat.mul_zero, Nat.zero_mod] at h1; exact absurd h1 (by norm_num)
    · exact h
  have hmp : mPrime m = montRadix - mInv m := by
    unfold mPrime
    exact Nat.mod_eq_of_lt (by omega)
  have hsum : m * mPrime m + m * mInv m = m * montRadix := by
    rw [hmp, ← Nat.mul_add, Nat.sub_add_cancel (le_of_lt hlt)]
  have hmod0 : (m * mPrime m + m * mInv m) % montRadix = 0 := by
    rw [hsum]; exact Nat.mul_mod_left m montRadix
  have hA : m * mPrime m % montRadix < montRadix := Nat.mod_lt _ montRadix_pos
  have hsplit : (m * mPrime m % montRadix + m * mInv m % montRadix) % montRadix = 0 := by
    rw [Nat.add_mod] at hmod0
    exact hmod0
  rw [h1] at hsplit
  have hR : montRadix = 18446744073709551616 := by norm_num [montRadix]
  rw [hR] at hA hsplit ⊢
  omega

/-- Modelled from the spec (§4.2): the Montgomery reduction step of the
hybrid multiplier, radix `2^64`, returning `(a + (a·m' mod R)·m) / R`
where `m'` is the negated modular inverse of the modulus. -/
def mont_redc (m a : ℕ) : ℕ :=
  (a + a * mPrime m % montRadix * m) / montRadix

theorem mont_redc_dvd (m a : ℕ) (hodd : m % 2 = 1) :
    montRadix ∣ a + a * mPrime m % montRadix * m := by
  have hmp := mPrime_mul m hodd
  have h1 : a + a * mPrime m % montRadix * m ≡ a + a * mPrime m * m [MOD montRadix] :=
    Nat.ModEq.add_left a (Nat.ModEq.mul_right m (Nat.mod_modEq _ _))
  have h2 : a + a * mPrime m * m ≡ a + a * (montRadix - 1) [MOD montRadix] := by
    have heq : a * mPrime m * m = a * (m * mPrime m) := by ring
    rw [heq]
    refine Nat.ModEq.add_left a (Nat.ModEq.mul_left a ?_)
    calc m * mPrime m ≡ m * mPrime m % montRadix [MOD montRadix] := (Nat.mod_modEq _ _).symm
      _ = montRadix - 1 := hmp
  have h3 : a + a * (montRadix - 1) = a * montRadix := by
    have : 1 + (montRadix - 1) = montRadix := by
      have := montRadix_pos; omega
    calc a + a * (montRadix - 1) = a * (1 + (montRadix - 1)) := by ring
      _ = a * montRadix := by rw [this]
  have h4 : a * montRadix ≡ 0 [MOD montRadix] :=
    (Nat.modEq_zero_iff_dvd).mpr ⟨a, by ring⟩
  have := (h1.trans h2)
  rw [h3] at this
  exact (Nat.modEq_zero_iff_dvd).mp (this.trans h4)

theorem mont_redc_mul (m a : ℕ) (hodd : m % 2 = 1) :
    mont_redc m a * montRadix = a + a * mPrime m % montRadix * m :=
  Nat.div_mul_cancel (mont_redc_dvd m a hodd)

theorem mont_redc_lt (m a : ℕ) (ha : a < montRadix * m) :
    mont_redc m a < 2 * m := by
  have hm0 : 0 < m := by
    rcases Nat.eq_zero_or_pos m with h | h
    · rw [h, Nat.mul_zero] at ha; omega
    · exact h
  have hu : a * mPrime m % montRadix < montRadix := Nat.mod_lt _ montRadix_pos
  have hum : a * mPrime m % montRadix * m < montRadix * m :=
    (Nat.mul_lt_mul_right hm0).mpr hu
  rw [mont_redc]
  rw [Nat.div_lt_iff_lt_mul montRadix_pos]
  have hring : 2 * m * montRadix = montRadix * m + montRadix * m := by ring
  omega

theorem shoup_mul_le (b m w x : ℕ) : x * (w * b / m) / b * m ≤ x * w := by
  rcases Nat.eq_zero_or_pos b with hb | hb
  · simp [hb]
  · have h1 : x * (w * b / m) / b * m * b = x * (w * b / m) / b * b * m := by ring
    have h2 : x * (w * b / m) / b * b ≤ x * (w * b / m) := Nat.div_mul_le_self _ _
    have h3 : w * b / m * m ≤ w * b := Nat.div_mul_le_self _ _
    have h4 : x * (w * b / m) * m ≤ x * (w * b) := by
      calc x * (w * b / m) * m = x * (w * b / m * m) := by ring
        _ ≤ x * (w * b) := Nat.mul_le_mul_left x h3
    have h5 : x * (w * b / m) / b * m * b ≤ x * w * b := by
      rw [h1]
      calc x * (w * b / m) / b * b * m ≤ x * (w * b / m) * m := Nat.mul_le_mul_right m h2
        _ ≤ x * (w * b) := h4
        _ = x * w * b := by ring
    exact Nat.le_of_mul_le_mul_right h5 hb

theorem shoup_mod (b m w x : ℕ) :
    (x * w - x * (w * b / m) / b * m) % m = x * w % m := by
  have hle := shoup_mul_le b m w x
  have heq : x * w = x * w - x * (w * b / m) / b * m + x * (w * b / m) / b * m := by
    omega
  conv_rhs => rw [heq]
  rw [Nat.add_mul_mod_self_right]

theorem shoup_lt (b m w x : ℕ) (hm : 0 < m) (hb : 0 < b) (hx : x < b) :
    x * w - x * (w * b / m) / b * m < 2 * m := by
  have h1 : m * (w * b / m) + w * b % m = w * b := Nat.div_add_mod (w * b) m
  have h2 : b * (x * (w * b / m) / b) + x * (w * b / m) % b = x * (w * b / m) :=
    Nat.div_add_mod (x * (w * b / m)) b
  have hrm : w * b % m < m := Nat.mod_lt _ hm
  have hs : x * (w * b / m) % b < b := Nat.mod_lt _ hb
  have key : x * w * b =
      x * (w * b / m) / b * m * b + (m * (x * (w * b / m) % b) + x * (w * b % m)) := by
    calc x * w * b = x * (w * b) := by ring
      _ = x * (m * (w * b / m) + w * b % m) := by rw [h1]
      _ = m * (x * (w * b / m)) + x * (w * b % m) := by ring
      _ = m * (b * (x * (w * b / m) / b) + x * (w * b / m) % b) + x * (w * b % m) := by
          rw [h2]
      _ = x * (w * b / m) / b * m * b + (m * (x * (w * b / m) % b) + x * (w * b % m)) := by
          ring
  have hA : m * (x * (w * b / m) % b) < m * b := mul_lt_mul_of_pos_left hs hm
  have hB : x * (w * b % m) < b * m := by
    rcases Nat.eq_zero_or_pos (w * b % m) with h | h
    · rw [h, Nat.mul_zero]
      exact Nat.mul_pos hb hm
    · calc x * (w * b % m) < b * (w * b % m) := (Nat.mul_lt_mul_right h).mpr hx
        _ ≤ b * m := Nat.mul_le_mul_left b (le_of_lt hrm)
  have hring : m * b + b * m = 2 * m * b := by ring
  have hfinal : (x * w - x * (w * b / m) / b * m) * b < 2 * m * b := by
    have hle := shoup_mul_le b m w x
    rw [Nat.sub_mul]
    omega
  exact Nat.lt_of_mul_lt_mul_right hfinal

/-- Modelled from the spec (§4.1, §4.2): the precomputed Harvey auxiliary
constant `⌊(R mod modulus) · R / modulus⌋` of the lookup tuple. -/
def harveyAux (m : ℕ) : ℕ := montRadix % m * montRadix / m

/-- Modelled from the spec (§4.2) and the header comment of
`vector_mul_mod_hybrid_lazy` in `mod_arith.h`: one element of the hybrid
multiplier — Montgomery reduction of the full product, then the Harvey
correction (Shoup multiplication by `R mod modulus` using the auxiliary
constant) stripping the Montgomery factor, lazily (result not fully
reduced). -/
def hybridLazyElem (m x y : ℕ) : ℕ :=
  mont_redc m (x * y) * (montRadix % m) -
    mont_redc m (x * y) * harveyAux m / montRadix * m

/-- Modelled from the spec (§4.3): the Barrett constant
`⌊2^128 / modulus⌋`. -/
def barrettConst (m : ℕ) : ℕ := 2 ^ 128 / m

/-- Modelled from the spec (§4.3): one element of the Barrett multiplier —
full product, approximate quotient via the Barrett constant, one
subtraction of `q·modulus`, lazily (result not fully reduced). -/
def barrettLazyElem (m x y : ℕ) : ℕ :=
  x * y - x * y * barrettConst m / 2 ^ 128 * m

/-- Modelled from the spec (§4.2) and the declaration at
`mod_arith.h:34-36`: the vectorized lazy hybrid multiplier. -/
def vector_mul_mod_hybrid_lazy (m : ℕ) (v1 v2 : List ℕ) : List ℕ :=
  List.zipWith (hybridLazyElem m) v1 v2

/-- Modelled from the spec (§4.3) and the declaration at
`mod_arith.h:132-134`: the vectorized lazy Barrett multiplier. -/
def vector_mul_mod_barrett_lazy (m : ℕ) (v1 v2 : List ℕ) : List ℕ :=
  List.zipWith (barrettLazyElem m) v1 v2

/-- The conditional final subtraction
`out[i] -= (out[i] >= modulus) ? modulus : 0` from `mod_arith.h:86,184`. -/
def condSub (m x : ℕ) : ℕ := x - if m ≤ x then m else 0

/-- Translated from `mod_arith.h:81-88`: the strict hybrid multiplier is
the lazy one followed by one conditional subtraction per element. -/
def vector_mul_mod_hybrid (m : ℕ) (v1 v2 : List ℕ) : List ℕ :=
  (vector_mul_mod_hybrid_lazy m v1 v2).map (condSub m)

/-- Translated from `mod_arith.h:179-186`: the strict Barrett multiplier is
the lazy one followed by one conditional subtraction per element. -/
def vector_mul_mod_barrett (m : ℕ) (v1 v2 : List ℕ) : List ℕ :=
  (vector_mul_mod_barrett_lazy m v1 v2).map (condSub m)

theorem condSub_eq_mod (m x : ℕ) (hx : x < 2 * m) :
    condSub m x = x % m := by
  unfold condSub
  by_cases h : m ≤ x
  · rw [if_pos h, Nat.mod_eq_sub_mod h, Nat.mod_eq_of_lt (by omega)]
  · rw [if_neg h, Nat.mod_eq_of_lt (by omega)]
    omega

theorem hybridLazyElem_mod (m x y : ℕ) (hodd : m % 2 = 1) :
    hybridLazyElem m x y % m = x * y % m := by
  unfold hybridLazyElem harveyAux
  rw [shoup_mod montRadix m (montRadix % m) (mont_redc m (x * y))]
  rw [show mont_redc m (x * y) * (montRadix % m) % m =
        mont_redc m (x * y) * montRadix % m from
      Nat.ModEq.mul_left _ (Nat.mod_modEq _ _)]
  rw [mont_redc_mul m (x * y) hodd, Nat.add_mul_mod_self_right]

theorem hybridLazyElem_lt (m x y : ℕ) (hub : 2 * m ≤ montRadix)
    (hm : 0 < m) (hxy : x * y < montRadix * m) : hybridLazyElem m x y < 2 * m := by
  have ht := mont_redc_lt m (x * y) hxy
  unfold hybridLazyElem harveyAux
  exact shoup_lt montRadix m (montRadix % m) (mont_redc m (x * y)) hm montRadix_pos
    (by omega)

theorem barrettLazyElem_mod (m x y : ℕ) : barrettLazyElem m x y % m = x * y % m := by
  have h := shoup_mod (2 ^ 128) m 1 (x * y)
  simp only [one_mul, mul_one] at h
  unfold barrettLazyElem barrettConst
  exact h

theorem barrettLazyElem_lt (m x y : ℕ) (hm : 0 < m) (hxy : x * y < 2 ^ 128) :
    barrettLazyElem m x y < 2 * m := by
  have h := shoup_lt (2 ^ 128) m 1 (x * y) hm (by norm_num) hxy
  simp only [one_mul, mul_one] at h
  unfold barrettLazyElem barrettConst
  exact h

theorem zipWith_getD {α β γ : Type} (f : α → β → γ) (l1 : List α) (l2 : List β)
    (i : ℕ) (d1 : α) (d2 : β) (d3 : γ) (h1 : i < l1.length) (h2 : i < l2.length) :
    (List.zipWith f l1 l2).getD i d3 = f (l1.getD i d1) (l2.getD i d2) := by
  have hlen : i < (List.zipWith f l1 l2).length := by
    rw [List.length_zipWith]; omega
  rw [List.getD_eq_getElem _ _ hlen, List.getD_eq_getElem _ _ h1,
    List.getD_eq_getElem _ _ h2]
  exact List.getElem_zipWith

theorem map_getD {α β : Type} (f : α → β) (l : List α) (i : ℕ) (d1 : α) (d2 : β)
    (h : i < l.length) : (l.map f).getD i d2 = f (l.getD i d1) := by
  have hlen : i < (l.map f).length := by rw [List.length_map]; omega
  rw [List.getD_eq_getElem _ _ hlen, List.getD_eq_getElem _ _ h]
  exact List.getElem_map f

/-- **C1**: for every odd modulus `m` with `3 ≤ m < 2^63` and inputs
`a, b ∈ [0, m)`, the strict hybrid and the strict Barrett multipliers on
the singleton vectors `[a]`, `[b]` both return `(a*b) mod m`, hence agree
with each other. -/
theorem hybrid_barrett_strict_agree (m a b : ℕ) (hodd : m % 2 = 1) (h3 : 3 ≤ m)
    (hub : m < 2 ^ 63) (ha : a < m) (hb : b < m) :
    vector_mul_mod_hybrid m [a] [b] = [a * b % m] ∧
    vector_mul_mod_barrett m [a] [b] = [a * b % m] ∧
    vector_mul_mod_hybrid m [a] [b] = vector_mul_mod_barrett m [a] [b] := by
  have hm : 0 < m := by omega
  have hR : montRadix = 18446744073709551616 := by norm_num [montRadix]
  have hmm : a * b < m * m := mul_lt_mul'' ha hb (Nat.zero_le _) (Nat.zero_le _)
  have hab : a * b < montRadix * m := by
    have h1 : m * m ≤ montRadix * m := Nat.mul_le_mul_right m (by omega)
    omega
  have hab128 : a * b < 2 ^ 128 := by
    have h1 : montRadix * m ≤ montRadix * 2 ^ 63 := Nat.mul_le_mul_left _ (by omega)
    have h2 : montRadix * 2 ^ 63 < 2 ^ 128 := by norm_num [montRadix]
    omega
  have h2m : 2 * m ≤ montRadix := by omega
  have hhlt : hybridLazyElem m a b < 2 * m := hybridLazyElem_lt m a b h2m hm hab
  have hblt : barrettLazyElem m a b < 2 * m := barrettLazyElem_lt m a b hm hab128
  have e1 : vector_mul_mod_hybrid m [a] [b] = [condSub m (hybridLazyElem m a b)] := rfl
  have e2 : vector_mul_mod_barrett m [a] [b] = [condSub m (barrettLazyElem m a b)] := rfl
  have g1 : vector_mul_mod_hybrid m [a] [b] = [a * b % m] := by
    rw [e1, condSub_eq_mod _ _ hhlt, hybridLazyElem_mod m a b hodd]
  have g2 : vector_mul_mod_barrett m [a] [b] = [a * b % m] := by
    rw [e2, condSub_eq_mod _ _ hblt, barrettLazyElem_mod m a b]
  exact ⟨g1, g2, by rw [g1, g2]⟩

/-- Witness for C1 at `m = 17`, `a = 5`, `b = 3`. -/
theorem hybrid_barrett_strict_agree_witness :
    vector_mul_mod_hybrid 17 [5] [3] = [5 * 3 % 17] ∧
    vector_mul_mod_barrett 17 [5] [3] = [5 * 3 % 17] ∧
    vector_mul_mod_hybrid 17 [5] [3] = vector_mul_mod_barrett 17 [5] [3] :=
  hybrid_barrett_strict_agree 17 5 3 (by norm_num) (by norm_num) (by norm_num)
    (by norm_num) (by norm_num)

/-- **C2** (amended): for odd `m < 2^63` and inputs in the lazy range
`[0, 2m)`, both lazy multipliers produce a value congruent to the product;
the Barrett result is below `2m` for all such `m`, while the hybrid result
is guaranteed below `2m` only when additionally `m < 2^62` (the Montgomery
step needs `in1[i]·in2[i] < 2^64·m`). -/
theorem mul_mod_lazy_range (m : ℕ) (v1 v2 : List ℕ) (i : ℕ)
    (hodd : m % 2 = 1) (hub : m < 2 ^ 63)
    (h1 : ∀ x ∈ v1, x < 2 * m) (h2 : ∀ x ∈ v2, x < 2 * m)
    (hi1 : i < v1.length) (hi2 : i < v2.length) :
    ((vector_mul_mod_barrett_lazy m v1 v2).getD i 0 % m =
        v1.getD i 0 * v2.getD i 0 % m ∧
      (vector_mul_mod_barrett_lazy m v1 v2).getD i 0 < 2 * m) ∧
    (vector_mul_mod_hybrid_lazy m v1 v2).getD i 0 % m =
        v1.getD i 0 * v2.getD i 0 % m ∧
    (m < 2 ^ 62 → (vector_mul_mod_hybrid_lazy m v1 v2).getD i 0 < 2 * m) := by
  have hm : 0 < m := by omega
  have hR : montRadix = 18446744073709551616 := by norm_num [montRadix]
  have hx : v1.getD i 0 < 2 * m := by
    rw [List.getD_eq_getElem _ _ hi1]
    exact h1 _ (List.getElem_mem hi1)
  have hy : v2.getD i 0 < 2 * m := by
    rw [List.getD_eq_getElem _ _ hi2]
    exact h2 _ (List.getElem_mem hi2)
  have hprod : v1.getD i 0 * v2.getD i 0 < 2 * m * (2 * m) :=
    mul_lt_mul'' hx hy (Nat.zero_le _) (Nat.zero_le _)
  have hprod128 : v1.getD i 0 * v2.getD i 0 < 2 ^ 128 := by
    have ha : 2 * m ≤ 2 ^ 64 := by omega
    have hb : 2 * m * (2 * m) ≤ 2 ^ 64 * 2 ^ 64 := Nat.mul_le_mul ha ha
    have hc : (2 : ℕ) ^ 64 * 2 ^ 64 = 2 ^ 128 := by norm_num
    omega
  rw [vector_mul_mod_barrett_lazy, vector_mul_mod_hybrid_lazy,
    zipWith_getD _ _ _ _ 0 0 0 hi1 hi2, zipWith_getD _ _ _ _ 0 0 0 hi1 hi2]
  refine ⟨⟨barrettLazyElem_mod m _ _, barrettLazyElem_lt m _ _ hm hprod128⟩,
    hybridLazyElem_mod m _ _ hodd, ?_⟩
  intro h62
  have h4m : 2 * m * (2 * m) ≤ montRadix * m := by
    have he : 2 * m * (2 * m) = 4 * m * m := by ring
    have hf : 4 * m * m ≤ montRadix * m := Nat.mul_le_mul_right m (by omega)
    omega
  exact hybridLazyElem_lt m _ _ (by omega) hm (by omega)

/-- Witness for the amended C2 at `m = 17`, `v1 = [5]`, `v2 = [3]`, `i = 0`. -/
theorem mul_mod_lazy_range_witness :
    ((vector_mul_mod_barrett_lazy 17 [5] [3]).getD 0 0 % 17 =
        [(5 : ℕ)].getD 0 0 * [(3 : ℕ)].getD 0 0 % 17 ∧
      (vector_mul_mod_barrett_lazy 17 [5] [3]).getD 0 0 < 2 * 17) ∧
    (vector_mul_mod_hybrid_lazy 17 [5] [3]).getD 0 0 % 17 =
        [(5 : ℕ)].getD 0 0 * [(3 : ℕ)].getD 0 0 % 17 ∧
    (17 < 2 ^ 62 → (vector_mul_mod_hybrid_lazy 17 [5] [3]).getD 0 0 < 2 * 17) :=
  mul_mod_lazy_range 17 [5] [3] 0 (by norm_num) (by norm_num) (by decide) (by decide)
    (by decide) (by decide)

set_option maxRecDepth 100000 in
/-- **C2 counterexample**: a concrete odd modulus `m < 2^63` with inputs in
`[0, 2m)` for which the hybrid lazy multiplier returns a value that is not
below `2m`: the claim as stated (all odd `m < 2^63`) is false. -/
theorem mul_mod_lazy_range_cex :
    (9011324637626380549 : ℕ) % 2 = 1 ∧
    (9011324637626380549 : ℕ) < 2 ^ 63 ∧
    (18022649275252761090 : ℕ) < 2 * 9011324637626380549 ∧
    (18022649275252761089 : ℕ) < 2 * 9011324637626380549 ∧
    ¬ (vector_mul_mod_hybrid_lazy 9011324637626380549 [18022649275252761090]
        [18022649275252761089]).getD 0 0 < 2 * 9011324637626380549 := by
  refine ⟨by norm_num, by norm_num, by norm_num, by norm_num, ?_⟩
  decide

/-- **C3**: each strict multiply variant is exactly the corresponding lazy
variant followed by one conditional subtraction of the modulus per element,
and (for valid odd moduli and reduced inputs) the result is canonical,
i.e. in `[0, modulus)`. -/
theorem strict_is_lazy_then_condsub (m : ℕ) (v1 v2 : List ℕ) :
    vector_mul_mod_hybrid m v1 v2 =
      (vector_mul_mod_hybrid_lazy m v1 v2).map (fun x => x - if m ≤ x then m else 0) ∧
    vector_mul_mod_barrett m v1 v2 =
      (vector_mul_mod_barrett_lazy m v1 v2).map (fun x => x - if m ≤ x then m else 0) ∧
    (m % 2 = 1 → m < 2 ^ 63 → (∀ x ∈ v1, x < m) → (∀ x ∈ v2, x < m) →
      (∀ z ∈ vector_mul_mod_hybrid m v1 v2, z < m) ∧
      (∀ z ∈ vector_mul_mod_barrett m v1 v2, z < m)) := by
  refine ⟨rfl, rfl, ?_⟩
  intro hodd hub h1 h2
  have hm : 0 < m := by omega
  have hR : montRadix = 18446744073709551616 := by norm_num [montRadix]
  have key : ∀ (x y : ℕ), x < m → y < m →
      condSub m (hybridLazyElem m x y) < m ∧ condSub m (barrettLazyElem m x y) < m := by
    intro x y hx hy
    have hmm : x * y < m * m := mul_lt_mul'' hx hy (Nat.zero_le _) (Nat.zero_le _)
    have hab : x * y < montRadix * m := by
      have := Nat.mul_le_mul_right m (show m ≤ montRadix by omega)
      omega
    have hab128 : x * y < 2 ^ 128 := by
      have ha : montRadix * m ≤ montRadix * 2 ^ 63 := Nat.mul_le_mul_left _ (by omega)
      have hb : montRadix * 2 ^ 63 < 2 ^ 128 := by norm_num [montRadix]
      omega
    have hhlt : hybridLazyElem m x y < 2 * m :=
      hybridLazyElem_lt m x y (by omega) hm hab
    have hblt : barrettLazyElem m x y < 2 * m := barrettLazyElem_lt m x y hm hab128
    rw [condSub_eq_mod _ _ hhlt, condSub_eq_mod _ _ hblt]
    exact ⟨Nat.mod_lt _ hm, Nat.mod_lt _ hm⟩
  constructor
  · intro z hz
    unfold vector_mul_mod_hybrid vector_mul_mod_hybrid_lazy at hz
    rcases List.mem_map.mp hz with ⟨w, hw, rfl⟩
    rcases List.mem_iff_getElem.mp hw with ⟨i, hi, rfl⟩
    rw [List.length_zipWith] at hi
    have hi1 : i < v1.length := by omega
    have hi2 : i < v2.length := by omega
    rw [List.getElem_zipWith]
    exact (key _ _ (h1 _ (List.getElem_mem hi1)) (h2 _ (List.getElem_mem hi2))).1
  · intro z hz
    unfold vector_mul_mod_barrett vector_mul_mod_barrett_lazy at hz
    rcases List.mem_map.mp hz with ⟨w, hw, rfl⟩
    rcases List.mem_iff_getElem.mp hw with ⟨i, hi, rfl⟩
    rw [List.length_zipWith] at hi
    have hi1 : i < v1.length := by omega
    have hi2 : i < v2.length := by omega
    rw [List.getElem_zipWith]
    exact (key _ _ (h1 _ (List.getElem_mem hi1)) (h2 _ (List.getElem_mem hi2))).2

/-- Witness for C3 at the spec's concrete scenario
`m = 17`, `v1 = [5, 9, 16]`, `v2 = [3, 2, 16]`. -/
theorem strict_is_lazy_then_condsub_witness :
    (∀ z ∈ vector_mul_mod_hybrid 17 [5, 9, 16] [3, 2, 16], z < 17) ∧
    (∀ z ∈ vector_mul_mod_barrett 17 [5, 9, 16] [3, 2, 16], z < 17) :=
  (strict_is_lazy_then_condsub 17 [5, 9, 16] [3, 2, 16]).2.2 (by norm_num)
    (by norm_num) (by decide) (by decide)

/-- Modelled from the spec (§3): the RNS polynomial container — an ordered
sequence of component vectors, one per modulus of the associated modulus
chain. -/
structure RnsPolynomial where
  moduli : List ℕ
  components : List (List ℕ)
deriving DecidableEq

/-- Modelled from the spec (§4.4) and the declaration at `mod_arith.h:218`:
normalize every element of every component from the lazy range down to the
canonical range by a single conditional subtraction of that component's
modulus. -/
def strict_reduce (p : RnsPolynomial) : RnsPolynomial :=
  ⟨p.moduli, List.zipWith (fun m c => c.map (condSub m)) p.moduli p.components⟩

theorem strict_reduce_getD (p : RnsPolynomial) (j i : ℕ)
    (hj1 : j < p.moduli.length) (hj2 : j < p.components.length)
    (hi : i < (p.components.getD j []).length) :
    ((strict_reduce p).components.getD j []).getD i 0 =
      condSub (p.moduli.getD j 0) ((p.components.getD j []).getD i 0) := by
  simp only [strict_reduce]
  rw [zipWith_getD _ _ _ j 0 [] [] hj1 hj2]
  exact map_getD _ _ i 0 0 hi

/-- **C4**: on an RNS polynomial whose every element is below twice its
component's modulus, `strict_reduce` leaves elements already in
`[0, modulus)` unchanged, subtracts the modulus exactly once from elements
in `[modulus, 2·modulus)`, and afterwards every element is in
`[0, modulus)`. -/
theorem strict_reduce_spec (p : RnsPolynomial) (j i : ℕ)
    (hj1 : j < p.moduli.length) (hj2 : j < p.components.length)
    (hi : i < (p.components.getD j []).length)
    (hpre : ∀ j' < p.components.length, ∀ i' < (p.components.getD j' []).length,
      (p.components.getD j' []).getD i' 0 < 2 * p.moduli.getD j' 0) :
    (((p.components.getD j []).getD i 0 < p.moduli.getD j 0 →
        ((strict_reduce p).components.getD j []).getD i 0 =
          (p.components.getD j []).getD i 0) ∧
      (p.moduli.getD j 0 ≤ (p.components.getD j []).getD i 0 →
        ((strict_reduce p).components.getD j []).getD i 0 =
          (p.components.getD j []).getD i 0 - p.moduli.getD j 0)) ∧
    ((strict_reduce p).components.getD j []).getD i 0 < p.moduli.getD j 0 := by
  have hx := hpre j hj2 i hi
  rw [strict_reduce_getD p j i hj1 hj2 hi]
  unfold condSub
  refine ⟨⟨?_, ?_⟩, ?_⟩
  · intro hlt
    rw [if_neg (by omega)]
    omega
  · intro hge
    rw [if_pos hge]
  · by_cases h : p.moduli.getD j 0 ≤ (p.components.getD j []).getD i 0
    · rw [if_pos h]; omega
    · rw [if_neg h]; omega

/-- Witness for C4 on a concrete two-component polynomial. -/
theorem strict_reduce_spec_witness :
    (((RnsPolynomial.mk [5, 7] [[3, 9], [6, 13]]).components.getD 1 []).getD 1 0 <
        (RnsPolynomial.mk [5, 7] [[3, 9], [6, 13]]).moduli.getD 1 0 →
      ((strict_reduce (RnsPolynomial.mk [5, 7] [[3, 9], [6, 13]])).components.getD
          1 []).getD 1 0 =
        ((RnsPolynomial.mk [5, 7] [[3, 9], [6, 13]]).components.getD 1 []).getD 1 0) ∧
    ((RnsPolynomial.mk [5, 7] [[3, 9], [6, 13]]).moduli.getD 1 0 ≤
        ((RnsPolynomial.mk [5, 7] [[3, 9], [6, 13]]).components.getD 1 []).getD 1 0 →
      ((strict_reduce (RnsPolynomial.mk [5, 7] [[3, 9], [6, 13]])).components.getD
          1 []).getD 1 0 =
        ((RnsPolynomial.mk [5, 7] [[3, 9], [6, 13]]).components.getD 1 []).getD 1 0 -
          (RnsPolynomial.mk [5, 7] [[3, 9], [6, 13]]).moduli.getD 1 0) :=
  (strict_reduce_spec (RnsPolynomial.mk [5, 7] [[3, 9], [6, 13]]) 1 1 (by decide)
    (by decide) (by decide) (by decide)).1

theorem strict_reduce_eq_self (p : RnsPolynomial)
    (hlen : p.moduli.length = p.components.length)
    (hred : ∀ j < p.components.length, ∀ i < (p.components.getD j []).length,
      (p.components.getD j []).getD i 0 < p.moduli.getD j 0) :
    strict_reduce p = p := by
  obtain ⟨ms, cs⟩ := p
  simp only [strict_reduce]
  simp only at hlen hred
  congr 1
  apply List.ext_getElem
  · rw [List.length_zipWith]; omega
  · intro j h1 h2
    have hjm : j < ms.length := by omega
    rw [List.getElem_zipWith]
    apply List.ext_getElem
    · rw [List.length_map]
    · intro i hi1 hi2
      rw [List.getElem_map]
      have hx := hred j h2 i (by rw [List.getD_eq_getElem cs [] h2]; exact hi2)
      rw [List.getD_eq_getElem cs [] h2, List.getD_eq_getElem _ 0 hi2,
        List.getD_eq_getElem ms 0 hjm] at hx
      unfold condSub
      rw [if_neg (by omega)]
      omega

/-- **C5**: `strict_reduce` is idempotent on reduced data — on a polynomial
whose elements are already in `[0, modulus)` it is a no-op (so a second
application changes nothing) — and one application always lands an element
of `[modulus, 2·modulus)` in `[0, modulus)`. -/
theorem strict_reduce_idem (p : RnsPolynomial)
    (hlen : p.moduli.length = p.components.length)
    (hred : ∀ j < p.components.length, ∀ i < (p.components.getD j []).length,
      (p.components.getD j []).getD i 0 < p.moduli.getD j 0) :
    (strict_reduce (strict_reduce p) = strict_reduce p ∧ strict_reduce p = p) ∧
    ∀ (q : RnsPolynomial) (j i : ℕ), j < q.moduli.length → j < q.components.length →
      i < (q.components.getD j []).length →
      q.moduli.getD j 0 ≤ (q.components.getD j []).getD i 0 →
      (q.components.getD j []).getD i 0 < 2 * q.moduli.getD j 0 →
      ((strict_reduce q).components.getD j []).getD i 0 < q.moduli.getD j 0 := by
  have hself := strict_reduce_eq_self p hlen hred
  refine ⟨⟨by rw [hself, hself], hself⟩, ?_⟩
  intro q j i hj1 hj2 hi hge hlt
  rw [strict_reduce_getD q j i hj1 hj2 hi]
  unfold condSub
  rw [if_pos hge]
  omega

/-- Witness for C5 on a concrete reduced two-component polynomial. -/
theorem strict_reduce_idem_witness :
    strict_reduce (strict_reduce (RnsPolynomial.mk [5, 7] [[3, 4], [0, 6]])) =
        strict_reduce (RnsPolynomial.mk [5, 7] [[3, 4], [0, 6]]) ∧
      strict_reduce (RnsPolynomial.mk [5, 7] [[3, 4], [0, 6]]) =
        RnsPolynomial.mk [5, 7] [[3, 4], [0, 6]] :=
  (strict_reduce_idem (RnsPolynomial.mk [5, 7] [[3, 4], [0, 6]]) (by decide)
    (by decide)).1

/-- **C6**: called on data violating the precondition (an element at or
above `2·modulus`), `strict_reduce` still performs its single conditional
subtraction, and the result at that element stays at or above the modulus
(incorrect, not fully reduced) — there is no exception and no loop. -/
theorem strict_reduce_out_of_range (p : RnsPolynomial) (j i : ℕ)
    (hj1 : j < p.moduli.length) (hj2 : j < p.components.length)
    (hi : i < (p.components.getD j []).length)
    (hx : 2 * p.moduli.getD j 0 ≤ (p.components.getD j []).getD i 0) :
    ((strict_reduce p).components.getD j []).getD i 0 =
      (p.components.getD j []).getD i 0 - p.moduli.getD j 0 ∧
    p.moduli.getD j 0 ≤ ((strict_reduce p).components.getD j []).getD i 0 := by
  rw [strict_reduce_getD p j i hj1 hj2 hi]
  unfold condSub
  rw [if_pos (by omega)]
  exact ⟨rfl, by omega⟩

/-- Witness for C6: element `17` with modulus `5` stays unreduced (`12`). -/
theorem strict_reduce_out_of_range_witness :
    ((strict_reduce (RnsPolynomial.mk [5] [[17]])).components.getD 0 []).getD 0 0 =
      ((RnsPolynomial.mk [5] [[17]]).components.getD 0 []).getD 0 0 -
        (RnsPolynomial.mk [5] [[17]]).moduli.getD 0 0 ∧
    (RnsPolynomial.mk [5] [[17]]).moduli.getD 0 0 ≤
      ((strict_reduce (RnsPolynomial.mk [5] [[17]])).components.getD 0 []).getD 0 0 :=
  strict_reduce_out_of_range (RnsPolynomial.mk [5] [[17]]) 0 0 (by decide) (by decide)
    (by decide) (by decide)

theorem getD_set (l : List ℕ) (k j a d : ℕ) :
    (l.set k a).getD j d = if k = j ∧ k < l.length then a else l.getD j d := by
  induction l generalizing k j with
  | nil =>
    rw [if_neg (by simp)]
    rfl
  | cons x xs ih =>
    cases k with
    | zero =>
      cases j with
      | zero => simp
      | succ j' => simp
    | succ k' =>
      cases j with
      | zero => simp
      | succ j' =>
        simp only [List.set, List.getD_cons_succ, List.length_cons]
        rw [ih k' j']
        by_cases h : k' = j' ∧ k' < xs.length
        · rw [if_pos h, if_pos (by omega)]
        · rw [if_neg h, if_neg (by omega)]

/-- A C-style write loop: starting at index `i`, for `steps` iterations,
overwrite slot `i` of the buffer with `g buf i`, where `g` may read the
evolving buffer itself — this models running the multiply loops with the
output vector aliased onto an input vector. -/
def writeLoop (g : List ℕ → ℕ → ℕ) : ℕ → ℕ → List ℕ → List ℕ
  | _, 0, buf => buf
  | i, steps + 1, buf => writeLoop g (i + 1) steps (buf.set i (g buf i))

theorem writeLoop_length (g : List ℕ → ℕ → ℕ) :
    ∀ (steps i : ℕ) (buf : List ℕ), (writeLoop g i steps buf).length = buf.length := by
  intro steps
  induction steps with
  | zero => intro i buf; rfl
  | succ n ih =>
    intro i buf
    simp only [writeLoop]
    rw [ih, List.length_set]

theorem writeLoop_congr (g : List ℕ → ℕ → ℕ) (h : ℕ → ℕ) :
    ∀ (steps i : ℕ) (buf : List ℕ),
      (∀ (b : List ℕ) (j : ℕ), i ≤ j → b.length = buf.length →
        (∀ k, j ≤ k → b.getD k 0 = buf.getD k 0) → g b j = h j) →
      writeLoop g i steps buf = writeLoop (fun _ k => h k) i steps buf := by
  intro steps
  induction steps with
  | zero => intro i buf _; rfl
  | succ n ih =>
    intro i buf hg
    have hgi : g buf i = h i := hg buf i (le_refl i) rfl (fun k _ => rfl)
    simp only [writeLoop]
    rw [hgi]
    apply ih
    intro b j hij hblen hagree
    apply hg b j (by omega) (by rw [hblen, List.length_set])
    intro k hk
    rw [hagree k hk, getD_set, if_neg (by omega)]

theorem writeLoop_pure_getD (h : ℕ → ℕ) :
    ∀ (steps i : ℕ) (buf : List ℕ) (j : ℕ),
      (writeLoop (fun _ k => h k) i steps buf).getD j 0 =
        if i ≤ j ∧ j < i + steps ∧ j < buf.length then h j else buf.getD j 0 := by
  intro steps
  induction steps with
  | zero =>
    intro i buf j
    rw [if_neg (by omega)]
    rfl
  | succ n ih =>
    intro i buf j
    simp only [writeLoop]
    rw [ih (i + 1) (buf.set i (h i)) j, List.length_set, getD_set]
    by_cases hc1 : i + 1 ≤ j ∧ j < i + 1 + n ∧ j < buf.length
    · rw [if_pos hc1, if_pos (by omega)]
    · rw [if_neg hc1]
      by_cases hc2 : i = j ∧ i < buf.length
      · rw [if_pos hc2, if_pos (by omega), hc2.1]
      · rw [if_neg hc2, if_neg (by omega)]

/-- The multiply loop with the output buffer aliased index-for-index onto
`in1`: the first operand of each element operation is read from the buffer
being overwritten. -/
def inPlace1 (f : ℕ → ℕ → ℕ) (v1 v2 : List ℕ) : List ℕ :=
  writeLoop (fun b i => f (b.getD i 0) (v2.getD i 0)) 0 v1.length v1

/-- The multiply loop with the output buffer aliased index-for-index onto
`in2`. -/
def inPlace2 (f : ℕ → ℕ → ℕ) (v1 v2 : List ℕ) : List ℕ :=
  writeLoop (fun b i => f (v1.getD i 0) (b.getD i 0)) 0 v2.length v2

/-- The multiply loop with separate (non-aliased) output storage `out0`. -/
def outPlace (f : ℕ → ℕ → ℕ) (v1 v2 out0 : List ℕ) : List ℕ :=
  writeLoop (fun _ i => f (v1.getD i 0) (v2.getD i 0)) 0 v1.length out0

/-- The in-place conditional-subtraction finalization loop of the strict
multiply variants (`mod_arith.h:85-87, 183-185`). -/
def condSubLoop (m : ℕ) (buf : List ℕ) : List ℕ :=
  writeLoop (fun b i => condSub m (b.getD i 0)) 0 buf.length buf

theorem writeLoop_pure_ext (h : ℕ → ℕ) (buf1 buf2 : List ℕ) (n : ℕ)
    (h1 : buf1.length = n) (h2 : buf2.length = n) :
    writeLoop (fun _ k => h k) 0 n buf1 = writeLoop (fun _ k => h k) 0 n buf2 := by
  apply List.ext_getElem
  · rw [writeLoop_length, writeLoop_length, h1, h2]
  · intro j ha hb
    rw [writeLoop_length, h1] at ha
    rw [writeLoop_length, h2] at hb
    rw [← List.getD_eq_getElem _ 0, ← List.getD_eq_getElem _ 0,
      writeLoop_pure_getD, writeLoop_pure_getD,
      if_pos ⟨Nat.zero_le j, by omega, by omega⟩,
      if_pos ⟨Nat.zero_le j, by omega, by omega⟩]

theorem inPlace1_eq_zipWith (f : ℕ → ℕ → ℕ) (v1 v2 : List ℕ)
    (h2 : v2.length = v1.length) : inPlace1 f v1 v2 = List.zipWith f v1 v2 := by
  rw [inPlace1,
    writeLoop_congr _ (fun j => f (v1.getD j 0) (v2.getD j 0)) v1.length 0 v1
      (fun b j _ _ hagree => by rw [hagree j (le_refl j)])]
  apply List.ext_getElem
  · rw [writeLoop_length, List.length_zipWith]; omega
  · intro j ha hb
    rw [writeLoop_length] at ha
    rw [← List.getD_eq_getElem _ 0, ← List.getD_eq_getElem _ 0,
      writeLoop_pure_getD, if_pos ⟨Nat.zero_le j, by omega, by omega⟩,
      zipWith_getD f v1 v2 j 0 0 0 (by omega) (by omega)]

theorem inPlace2_eq_zipWith (f : ℕ → ℕ → ℕ) (v1 v2 : List ℕ)
    (h2 : v2.length = v1.length) : inPlace2 f v1 v2 = List.zipWith f v1 v2 := by
  rw [inPlace2,
    writeLoop_congr _ (fun j => f (v1.getD j 0) (v2.getD j 0)) v2.length 0 v2
      (fun b j _ _ hagree => by rw [hagree j (le_refl j)])]
  apply List.ext_getElem
  · rw [writeLoop_length, List.length_zipWith]; omega
  · intro j ha hb
    rw [writeLoop_length] at ha
    rw [← List.getD_eq_getElem _ 0, ← List.getD_eq_getElem _ 0,
      writeLoop_pure_getD, if_pos ⟨Nat.zero_le j, by omega, by omega⟩,
      zipWith_getD f v1 v2 j 0 0 0 (by omega) (by omega)]

theorem outPlace_eq_zipWith (f : ℕ → ℕ → ℕ) (v1 v2 out0 : List ℕ)
    (h2 : v2.length = v1.length) (h0 : out0.length = v1.length) :
    outPlace f v1 v2 out0 = List.zipWith f v1 v2 := by
  rw [outPlace]
  apply List.ext_getElem
  · rw [writeLoop_length, List.length_zipWith]; omega
  · intro j ha hb
    rw [writeLoop_length] at ha
    rw [← List.getD_eq_getElem _ 0, ← List.getD_eq_getElem _ 0,
      writeLoop_pure_getD, if_pos ⟨Nat.zero_le j, by omega, by omega⟩,
      zipWith_getD f v1 v2 j 0 0 0 (by omega) (by omega)]

theorem condSubLoop_eq_map (m : ℕ) (buf : List ℕ) :
    condSubLoop m buf = buf.map (condSub m) := by
  rw [condSubLoop,
    writeLoop_congr _ (fun j => condSub m (buf.getD j 0)) buf.length 0 buf
      (fun b j _ _ hagree => by rw [hagree j (le_refl j)])]
  apply List.ext_getElem
  · rw [writeLoop_length, List.length_map]
  · intro j ha hb
    rw [writeLoop_length] at ha
    rw [← List.getD_eq_getElem _ 0, ← List.getD_eq_getElem _ 0,
      writeLoop_pure_getD, if_pos ⟨Nat.zero_le j, by omega, by omega⟩,
      map_getD _ _ j 0 0 (by omega)]

/-- **C7**: for every multiply entry point (hybrid or Barrett, lazy or
strict), running the element loop with the output buffer aliased
index-for-index onto `in1` or onto `in2` yields exactly the same final
output contents as running it with separate output storage; the separate
run moreover agrees with the functional entry points. -/
theorem mul_mod_aliasing_safe (m : ℕ) (v1 v2 out0 : List ℕ)
    (h2 : v2.length = v1.length) (h0 : out0.length = v1.length) :
    (inPlace1 (hybridLazyElem m) v1 v2 = outPlace (hybridLazyElem m) v1 v2 out0 ∧
      inPlace2 (hybridLazyElem m) v1 v2 = outPlace (hybridLazyElem m) v1 v2 out0) ∧
    (inPlace1 (barrettLazyElem m) v1 v2 = outPlace (barrettLazyElem m) v1 v2 out0 ∧
      inPlace2 (barrettLazyElem m) v1 v2 = outPlace (barrettLazyElem m) v1 v2 out0) ∧
    (condSubLoop m (inPlace1 (hybridLazyElem m) v1 v2) =
        condSubLoop m (outPlace (hybridLazyElem m) v1 v2 out0) ∧
      condSubLoop m (inPlace2 (hybridLazyElem m) v1 v2) =
        condSubLoop m (outPlace (hybridLazyElem m) v1 v2 out0)) ∧
    (condSubLoop m (inPlace1 (barrettLazyElem m) v1 v2) =
        condSubLoop m (outPlace (barrettLazyElem m) v1 v2 out0) ∧
      condSubLoop m (inPlace2 (barrettLazyElem m) v1 v2) =
        condSubLoop m (outPlace (barrettLazyElem m) v1 v2 out0)) ∧
    outPlace (hybridLazyElem m) v1 v2 out0 = vector_mul_mod_hybrid_lazy m v1 v2 ∧
    outPlace (barrettLazyElem m) v1 v2 out0 = vector_mul_mod_barrett_lazy m v1 v2 ∧
    condSubLoop m (outPlace (hybridLazyElem m) v1 v2 out0) =
      vector_mul_mod_hybrid m v1 v2 ∧
    condSubLoop m (outPlace (barrettLazyElem m) v1 v2 out0) =
      vector_mul_mod_barrett m v1 v2 := by
  have eh1 := inPlace1_eq_zipWith (hybridLazyElem m) v1 v2 h2
  have eh2 := inPlace2_eq_zipWith (hybridLazyElem m) v1 v2 h2
  have eho := outPlace_eq_zipWith (hybridLazyElem m) v1 v2 out0 h2 h0
  have eb1 := inPlace1_eq_zipWith (barrettLazyElem m) v1 v2 h2
  have eb2 := inPlace2_eq_zipWith (barrettLazyElem m) v1 v2 h2
  have ebo := outPlace_eq_zipWith (barrettLazyElem m) v1 v2 out0 h2 h0
  have gh1 : inPlace1 (hybridLazyElem m) v1 v2 =
      outPlace (hybridLazyElem m) v1 v2 out0 := by rw [eh1, eho]
  have gh2 : inPlace2 (hybridLazyElem m) v1 v2 =
      outPlace (hybridLazyElem m) v1 v2 out0 := by rw [eh2, eho]
  have gb1 : inPlace1 (barrettLazyElem m) v1 v2 =
      outPlace (barrettLazyElem m) v1 v2 out0 := by rw [eb1, ebo]
  have gb2 : inPlace2 (barrettLazyElem m) v1 v2 =
      outPlace (barrettLazyElem m) v1 v2 out0 := by rw [eb2, ebo]
  refine ⟨⟨gh1, gh2⟩, ⟨gb1, gb2⟩, ⟨by rw [gh1], by rw [gh2]⟩,
    ⟨by rw [gb1], by rw [gb2]⟩, eho, ebo, ?_, ?_⟩
  · rw [condSubLoop_eq_map, eho]
    rfl
  · rw [condSubLoop_eq_map, ebo]
    rfl

/-- Witness for C7 at `m = 17`, `v1 = [5]`, `v2 = [3]`, `out0 = [0]`. -/
theorem mul_mod_aliasing_safe_witness :
    (inPlace1 (hybridLazyElem 17) [5] [3] = outPlace (hybridLazyElem 17) [5] [3] [0] ∧
      inPlace2 (hybridLazyElem 17) [5] [3] = outPlace (hybridLazyElem 17) [5] [3] [0]) ∧
    (inPlace1 (barrettLazyElem 17) [5] [3] = outPlace (barrettLazyElem 17) [5] [3] [0] ∧
      inPlace2 (barrettLazyElem 17) [5] [3] = outPlace (barrettLazyElem 17) [5] [3] [0]) ∧
    (condSubLoop 17 (inPlace1 (hybridLazyElem 17) [5] [3]) =
        condSubLoop 17 (outPlace (hybridLazyElem 17) [5] [3] [0]) ∧
      condSubLoop 17 (inPlace2 (hybridLazyElem 17) [5] [3]) =
        condSubLoop 17 (outPlace (hybridLazyElem 17) [5] [3] [0])) ∧
    (condSubLoop 17 (inPlace1 (barrettLazyElem 17) [5] [3]) =
        condSubLoop 17 (outPlace (barrettLazyElem 17) [5] [3] [0]) ∧
      condSubLoop 17 (inPlace2 (barrettLazyElem 17) [5] [3]) =
        condSubLoop 17 (outPlace (barrettLazyElem 17) [5] [3] [0])) ∧
    outPlace (hybridLazyElem 17) [5] [3] [0] = vector_mul_mod_hybrid_lazy 17 [5] [3] ∧
    outPlace (barrettLazyElem 17) [5] [3] [0] = vector_mul_mod_barrett_lazy 17 [5] [3] ∧
    condSubLoop 17 (outPlace (hybridLazyElem 17) [5] [3] [0]) =
      vector_mul_mod_hybrid 17 [5] [3] ∧
    condSubLoop 17 (outPlace (barrettLazyElem 17) [5] [3] [0]) =
      vector_mul_mod_barrett 17 [5] [3] :=
  mul_mod_aliasing_safe 17 [5] [3] [0] rfl rfl

/-- Modelled from the spec (§4.5) and `rlwe.h:25`: the polynomial dimension
parameters — ring degree and modulus chain. -/
structure PolyDimensions where
  poly_len : ℕ
  moduli : List ℕ

/-- Modelled from the spec (§4.5): reduce the one shared ternary source
coefficient vector modulo one chain modulus. -/
def ternaryToComponent (m : ℕ) (s : List ℤ) : List ℕ :=
  s.map (fun c => (c % (m : ℤ)).toNat)

/-- Modelled from the spec (§4.5) and `rlwe.h:20-26`: the components of a
freshly constructed `RlweSk` — one shared ternary coefficient vector `s`
reduced independently modulo every chain modulus, each component then
carried to the transform domain by the external transform `transf`. -/
def rlweSkComponents (transf : ℕ → List ℕ → List ℕ) (moduli : List ℕ)
    (s : List ℤ) : List (List ℕ) :=
  moduli.map (fun m => transf m (ternaryToComponent m s))

/-- Modelled from the spec (§4.5): the secret key as an RNS polynomial
(`class RlweSk : public RnsPolynomial`). -/
def rlweSkPoly (transf : ℕ → List ℕ → List ℕ) (dim : PolyDimensions)
    (s : List ℤ) : RnsPolynomial :=
  ⟨dim.moduli, rlweSkComponents transf dim.moduli s⟩

/-- Modelled from the spec (§8): lift a residue in `[0, m)` to its
symmetric representative around zero. -/
def symmetricLift (m x : ℕ) : ℤ := if m ≤ 2 * x then (x : ℤ) - m else x

theorem symmetricLift_reduce (m : ℕ) (c : ℤ) (hm : 3 ≤ m)
    (hc : c = -1 ∨ c = 0 ∨ c = 1) :
    symmetricLift m ((c % (m : ℤ)).toNat) = c := by
  rcases hc with rfl | rfl | rfl
  · have h1 : (-1 : ℤ) % (m : ℤ) = (m : ℤ) - 1 := by
      rw [show (-1 : ℤ) = ((m : ℤ) - 1) + (m : ℤ) * (-1) by ring,
        Int.add_mul_emod_self_left]
      exact Int.emod_eq_of_lt (by omega) (by omega)
    rw [h1]
    have h2 : ((m : ℤ) - 1).toNat = m - 1 := by omega
    rw [h2]
    unfold symmetricLift
    rw [if_pos (by omega)]
    omega
  · rw [Int.zero_emod]
    unfold symmetricLift
    rw [if_neg (by omega)]
    rfl
  · rw [Int.emod_eq_of_lt (by omega) (by omega)]
    unfold symmetricLift
    rw [if_neg (by omega)]
    simp

theorem ternaryToComponent_lt (m : ℕ) (s : List ℤ) (hm : 0 < m) :
    ∀ x ∈ ternaryToComponent m s, x < m := by
  intro x hx
  rcases List.mem_map.mp hx with ⟨c, _, rfl⟩
  have h1 : (0 : ℤ) ≤ c % (m : ℤ) := Int.emod_nonneg c (by omega)
  have h2 : c % (m : ℤ) < m := Int.emod_lt_of_pos c (by omega)
  omega

/-- **C8**: for a freshly constructed secret key over any valid dimensions
(chain moduli ≥ 3) with an external invertible transform, inverse-
transforming each RNS component and lifting residues symmetrically around
zero yields a coefficient vector of ring-degree length whose entries are
the shared ternary source vector — hence in `{-1, 0, 1}` and identical
across all RNS components. -/
theorem rlwe_sk_ternary (transf invT : ℕ → List ℕ → List ℕ)
    (dim : PolyDimensions) (s : List ℤ)
    (hinv : ∀ m v, (∀ x ∈ v, x < m) → invT m (transf m v) = v)
    (hm : ∀ m ∈ dim.moduli, 3 ≤ m)
    (hs : ∀ c ∈ s, c = -1 ∨ c = 0 ∨ c = 1)
    (hdeg : s.length = dim.poly_len) :
    ∀ j < dim.moduli.length,
      (invT (dim.moduli.getD j 0)
          ((rlweSkPoly transf dim s).components.getD j [])).map
        (symmetricLift (dim.moduli.getD j 0)) = s ∧
      ((invT (dim.moduli.getD j 0)
          ((rlweSkPoly transf dim s).components.getD j [])).map
        (symmetricLift (dim.moduli.getD j 0))).length = dim.poly_len := by
  intro j hj
  have hmj : 3 ≤ dim.moduli.getD j 0 := by
    rw [List.getD_eq_getElem _ _ hj]
    exact hm _ (List.getElem_mem hj)
  have hcomp : (rlweSkPoly transf dim s).components.getD j [] =
      transf (dim.moduli.getD j 0)
        (ternaryToComponent (dim.moduli.getD j 0) s) := by
    simp only [rlweSkPoly, rlweSkComponents]
    exact map_getD _ _ j 0 [] hj
  have hroundtrip : invT (dim.moduli.getD j 0)
      ((rlweSkPoly transf dim s).components.getD j []) =
      ternaryToComponent (dim.moduli.getD j 0) s := by
    rw [hcomp]
    exact hinv _ _ (ternaryToComponent_lt _ s (by omega))
  have hmain : (ternaryToComponent (dim.moduli.getD j 0) s).map
      (symmetricLift (dim.moduli.getD j 0)) = s := by
    unfold ternaryToComponent
    have hstep := List.map_congr_left
      (fun c hc => symmetricLift_reduce (dim.moduli.getD j 0) c hmj (hs c hc))
    rw [List.map_map]
    exact hstep.trans (List.map_id' s)
  rw [hroundtrip, hmain]
  exact ⟨rfl, hdeg⟩

/-- Witness for C8 at degree 8, chain `[17, 97]`, the identity transform,
and a concrete ternary vector. -/
theorem rlwe_sk_ternary_witness :
    ((fun (_ : ℕ) (v : List ℕ) => v) ((PolyDimensions.mk 8 [17, 97]).moduli.getD 0 0)
        ((rlweSkPoly (fun _ v => v) (PolyDimensions.mk 8 [17, 97])
            [1, -1, 0, 1, 0, 0, -1, 1]).components.getD 0 [])).map
      (symmetricLift ((PolyDimensions.mk 8 [17, 97]).moduli.getD 0 0)) =
      [1, -1, 0, 1, 0, 0, -1, 1] ∧
    (((fun (_ : ℕ) (v : List ℕ) => v) ((PolyDimensions.mk 8 [17, 97]).moduli.getD 0 0)
        ((rlweSkPoly (fun _ v => v) (PolyDimensions.mk 8 [17, 97])
            [1, -1, 0, 1, 0, 0, -1, 1]).components.getD 0 [])).map
      (symmetricLift ((PolyDimensions.mk 8 [17, 97]).moduli.getD 0 0))).length =
      (PolyDimensions.mk 8 [17, 97]).poly_len :=
  rlwe_sk_ternary (fun _ v => v) (fun _ v => v) (PolyDimensions.mk 8 [17, 97])
    [1, -1, 0, 1, 0, 0, -1, 1] (fun _ _ _ => rfl) (by decide) (by decide) rfl 0
    (by decide)

/-- Translated from `rlwe.h:11`: plaintext is a pure alias of the RNS
polynomial type, carrying no additional state. -/
def RlwePt : Type := RnsPolynomial

/-- Translated from `rlwe.h:13`: a ciphertext is a `std::array` of exactly
two RNS polynomials — one polynomial for each of the two indices. -/
def RlweCt : Type := Fin 2 → RnsPolynomial

/-- **C9**: `RlwePt` is definitionally equal to the RNS polynomial type
(an alias with no additional state), and `RlweCt` consists of exactly two
RNS polynomials — it is equivalent to an ordered pair of them. -/
theorem rlwe_types_structural :
    RlwePt = RnsPolynomial ∧ Nonempty (RlweCt ≃ RnsPolynomial × RnsPolynomial) := by
  refine ⟨rfl, ⟨⟨fun ct => (ct 0, ct 1), fun p i => if i = 0 then p.1 else p.2, ?_, ?_⟩⟩⟩
  · intro ct
    funext i
    fin_cases i <;> rfl
  · intro p
    rfl

/-- Translated from `rnspolynomial.h` via the overloads in `mod_arith.h`:
the `RnsPolynomial::ComponentData` handle over a component's underlying
numeric vector. -/
structure ComponentData where
  data : List ℕ

/-- Translated from `mod_arith.h:56-62`: the ComponentData overload
delegates to the raw-array lazy hybrid multiplier on `.data()`. -/
def vector_mul_mod_hybrid_lazy_component (m : ℕ) (in1 in2 : ComponentData) :
    ComponentData :=
  ⟨vector_mul_mod_hybrid_lazy m in1.data in2.data⟩

/-- Translated from `mod_arith.h:107-112`: the ComponentData overload
delegates to the raw-array strict hybrid multiplier on `.data()`. -/
def vector_mul_mod_hybrid_component (m : ℕ) (in1 in2 : ComponentData) :
    ComponentData :=
  ⟨vector_mul_mod_hybrid m in1.data in2.data⟩

/-- Translated from `mod_arith.h:154-160`: the ComponentData overload
delegates to the raw-array lazy Barrett multiplier on `.data()`. -/
def vector_mul_mod_barrett_lazy_component (m : ℕ) (in1 in2 : ComponentData) :
    ComponentData :=
  ⟨vector_mul_mod_barrett_lazy m in1.data in2.data⟩

/-- Translated from `mod_arith.h:205-211`: the ComponentData overload
delegates to the raw-array strict Barrett multiplier on `.data()`. -/
def vector_mul_mod_barrett_component (m : ℕ) (in1 in2 : ComponentData) :
    ComponentData :=
  ⟨vector_mul_mod_barrett m in1.data in2.data⟩

/-- **C10**: each `ComponentData` overload of the four multiply entry
points computes exactly the raw-array version applied to the component's
underlying data, for every modulus and contents. -/
theorem component_overloads_agree (m : ℕ) (in1 in2 : ComponentData) :
    (vector_mul_mod_hybrid_lazy_component m in1 in2).data =
      vector_mul_mod_hybrid_lazy m in1.data in2.data ∧
    (vector_mul_mod_hybrid_component m in1 in2).data =
      vector_mul_mod_hybrid m in1.data in2.data ∧
    (vector_mul_mod_barrett_lazy_component m in1 in2).data =
      vector_mul_mod_barrett_lazy m in1.data in2.data ∧
    (vector_mul_mod_barrett_component m in1 in2).data =
      vector_mul_mod_barrett m in1.data in2.data :=
  ⟨rfl, rfl, rfl, rfl⟩

end hehub
